import Mathlib

/-!
Verification development for the document-indexer core (`索引器2.0.py`).

The embedding translates, directly from the source:
  * `_normalize_term`  — `re.sub(r'\s*/\s*', '/', term).lower()`;
  * `_extract_terms`   — `re.findall` over `WORD_REGEX` and the phrase
    regex, stop-word filtering, and the three extraction modes;
  * the accumulation loop of `extract_from_pdf`
    (`term_map[term].add(i + 1)` over a `defaultdict(set)`);
  * `save_results_as_txt` — bucket grouping, letter ordering with `#`
    moved last, and the exact sequence of strings passed to `f.write`.

Machine strings are `String`/`List Char`; regex matching is embedded as a
backtracking engine over a small regex AST, producing candidate matches in
the same priority order as CPython's `re` (leftmost start, greedy
repetition, left-to-right alternation), driven by a structural fuel so that
all definitions compute by kernel reduction.  Python's `\s`, `\w` and
`str.lower` are modelled on their ASCII fragment, which covers every
character the two source regexes can put into a term.  The renderer's
`term[0].upper()` is modelled as a string-valued map covering ASCII plus,
exhaustively, the sixteen Unicode code points whose full-case uppercase
lies in the letter-bucket range (see `pyUpperOne`), so bucket assignment
agrees with CPython for every character.
-/

namespace Indexer

/-- Whitespace test for Python's `\s` (ASCII fragment): space, tab,
newline, vertical tab, form feed, carriage return. -/
def isWsB (c : Char) : Bool :=
  c.toNat == 32 || c.toNat == 9 || c.toNat == 10 ||
  c.toNat == 11 || c.toNat == 12 || c.toNat == 13

/-- Word-character test for Python's `\w` (ASCII fragment):
letters, digits, underscore. -/
def isWordChar (c : Char) : Bool :=
  (65 ≤ c.toNat && c.toNat ≤ 90) || (97 ≤ c.toNat && c.toNat ≤ 122) ||
  (48 ≤ c.toNat && c.toNat ≤ 57) || c.toNat == 95

/-- Character class `[a-zA-Z-./]` of `WORD_REGEX`: letters of either case,
hyphen, period, slash. -/
def isTokChar (c : Char) : Bool :=
  (97 ≤ c.toNat && c.toNat ≤ 122) || (65 ≤ c.toNat && c.toNat ≤ 90) ||
  c.toNat == 45 || c.toNat == 46 || c.toNat == 47

/-- ASCII uppercase letter test, class `[A-Z]`. -/
def isUpperB (c : Char) : Bool := 65 ≤ c.toNat && c.toNat ≤ 90

/-- ASCII letter test, class `[a-zA-Z]`. -/
def isAlphaB (c : Char) : Bool :=
  (65 ≤ c.toNat && c.toNat ≤ 90) || (97 ≤ c.toNat && c.toNat ≤ 122)

/-- Python `str.lower` on one character (ASCII fragment): shift `A`–`Z`
down by 32, leave everything else alone. -/
def lowerChar (c : Char) : Char :=
  if 65 ≤ c.toNat ∧ c.toNat ≤ 90 then Char.ofNat (c.toNat + 32) else c

/-- Python `str.lower` on a character list. -/
def lowerList (s : List Char) : List Char := s.map lowerChar

/-- Python `str.lower` on a string. -/
def lowerStr (s : String) : String := String.mk (lowerList s.data)

/-- Python `str.upper` of a single character, as a string — `str.upper`
can expand one character to several (Unicode full case conversion), and
in Python the result of indexing is a string anyway.  ASCII letters shift
down by 32.  Beyond ASCII, the table below lists, exhaustively, the
sixteen code points whose Unicode uppercase lies in the renderer's letter
range `"A" <= u <= "Z"` (verified by scanning every code point against
CPython's `str.upper`): U+00DF sharp s → `SS`, U+0131 dotless i → `I`,
U+017F long s → `S`, U+01F0 → `J`+U+030C, U+1E96 → `H`+U+0331,
U+1E97 → `T`+U+0308, U+1E98 → `W`+U+030A, U+1E99 → `Y`+U+030A,
U+1E9A → `A`+U+02BE, and the ligatures U+FB00–U+FB06 → `FF`, `FI`, `FL`,
`FFI`, `FFL`, `ST`, `ST`.  Every remaining character is modelled by
itself; its true uppercase (itself, or some non-ASCII string) never lies
in the letter range either, so every bucket computed from this model
agrees with the source's for every character. -/
def pyUpperOne (c : Char) : String :=
  if 97 ≤ c.toNat ∧ c.toNat ≤ 122 then String.mk [Char.ofNat (c.toNat - 32)]
  else if c.toNat = 223 then "SS"
  else if c.toNat = 305 then "I"
  else if c.toNat = 383 then "S"
  else if c.toNat = 496 then String.mk [Char.ofNat 74, Char.ofNat 780]
  else if c.toNat = 7830 then String.mk [Char.ofNat 72, Char.ofNat 817]
  else if c.toNat = 7831 then String.mk [Char.ofNat 84, Char.ofNat 776]
  else if c.toNat = 7832 then String.mk [Char.ofNat 87, Char.ofNat 778]
  else if c.toNat = 7833 then String.mk [Char.ofNat 89, Char.ofNat 778]
  else if c.toNat = 7834 then String.mk [Char.ofNat 65, Char.ofNat 702]
  else if c.toNat = 64256 then "FF"
  else if c.toNat = 64257 then "FI"
  else if c.toNat = 64258 then "FL"
  else if c.toNat = 64259 then "FFI"
  else if c.toNat = 64260 then "FFL"
  else if c.toNat = 64261 then "ST"
  else if c.toNat = 64262 then "ST"
  else String.singleton c

/-- One leftmost-match step of `re.sub(r'\s*/\s*', '/', ·)`: from the
current position, greedily drop whitespace; if a `/` follows, the match
succeeds and the remainder after greedily dropping whitespace past the
`/` is returned. -/
def trySlash (s : List Char) : Option (List Char) :=
  match s.dropWhile isWsB with
  | c :: rest => if c == '/' then some (rest.dropWhile isWsB) else none
  | [] => none

/-- Scanning loop of `re.sub(r'\s*/\s*', '/', ·)`: at each position, if the
pattern matches there, emit `/` and resume after the match; otherwise copy
one character.  The fuel is only a structural-recursion device; the wrapper
`collapseSlash` supplies one unit per character, which is always enough
because a successful match consumes at least the `/`. -/
def collapseGo : Nat → List Char → List Char
  | 0, s => s
  | _ + 1, [] => []
  | f + 1, c :: cs =>
      match trySlash (c :: cs) with
      | some rest => '/' :: collapseGo f rest
      | none => c :: collapseGo f cs

/-- Full `re.sub(r'\s*/\s*', '/', ·)` at the character-list level. -/
def collapseSlash (s : List Char) : List Char := collapseGo s.length s

/-- `IndexerBackend._normalize_term`:
`re.sub(r'\s*/\s*', '/', term).lower()`. -/
def normalizeTerm (t : String) : String :=
  lowerStr (String.mk (collapseSlash t.data))

/-- Regex AST covering the constructs used by the two source patterns:
single-character classes, the zero-width word boundary `\b`,
concatenation, alternation, and greedy Kleene star. -/
inductive RE where
  | cls (p : Char → Bool) : RE
  | wb : RE
  | seq (a b : RE) : RE
  | alt (a b : RE) : RE
  | star (a : RE) : RE

/-- Node count of a regex, used to size the engine's structural fuel. -/
def sizeRE : RE → Nat
  | .cls _ => 1
  | .wb => 1
  | .seq a b => sizeRE a + sizeRE b + 1
  | .alt a b => sizeRE a + sizeRE b + 1
  | .star a => sizeRE a + 1

/-- Last character consumed so far: the last character of the match
prefix `m`, or the surrounding left context when `m` is empty.  This is
the character Python's `\b` inspects on its left. -/
def lastPrev (m : List Char) (prv : Option Char) : Option Char :=
  match m.getLast? with
  | some c => some c
  | none => prv

/-- Python `\b`: true when exactly one of the neighbouring characters is a
word character (a missing neighbour counts as non-word). -/
def atBoundary (prv : Option Char) (s : List Char) : Bool :=
  (match prv with | some c => isWordChar c | none => false) !=
  (match s with | c :: _ => isWordChar c | [] => false)

/-- Backtracking matcher.  `matchL f re prv s` lists every way `re` can
match a prefix of `s` (given left context `prv`), each as
`(consumed characters, remaining suffix)`, in exactly the order a
backtracking engine such as CPython's explores them: greedy stars try
longer repetitions first, alternation tries the left branch first, and
concatenation backtracks through the left component's candidates in
order.  A star skips body matches that consume nothing, which is also how
CPython breaks empty-repetition loops.  Fuel `f` is a structural-recursion
device; every recursive call strictly decreases the pair
`(length of s, size of re)` lexicographically, so the wrapper's fuel
`(length + 1) * (size + 2)` can never run out. -/
def matchL : Nat → RE → Option Char → List Char → List (List Char × List Char)
  | 0, _, _, _ => []
  | _ + 1, .cls p, _, s =>
      match s with
      | c :: rest => if p c then [([c], rest)] else []
      | [] => []
  | _ + 1, .wb, prv, s => if atBoundary prv s then [([], s)] else []
  | f + 1, .seq a b, prv, s =>
      (matchL f a prv s).flatMap fun pr =>
        (matchL f b (lastPrev pr.1 prv) pr.2).map fun qr => (pr.1 ++ qr.1, qr.2)
  | f + 1, .alt a b, prv, s => matchL f a prv s ++ matchL f b prv s
  | f + 1, .star a, prv, s =>
      (((matchL f a prv s).filter fun pr => !pr.1.isEmpty).flatMap fun pr =>
        (matchL f (.star a) (lastPrev pr.1 prv) pr.2).map fun qr =>
          (pr.1 ++ qr.1, qr.2)) ++ [([], s)]

/-- Fuel bound for `matchL`: ample for the lexicographic call measure. -/
def reFuel (re : RE) (s : List Char) : Nat := (s.length + 1) * (sizeRE re + 2)

/-- The match Python's engine reports at one position: the first candidate
in backtracking order, if any. -/
def matchRE (re : RE) (prv : Option Char) (s : List Char) :
    Option (List Char × List Char) :=
  (matchL (reFuel re s) re prv s).head?

/-- Scanning loop of `re.findall`: try the pattern at each position,
left to right; on a match, emit it and resume after it (after one
character if it was empty, as CPython does); otherwise advance one
character.  The left context for `\b` is threaded along.  Fuel is one
unit per position, plus one. -/
def findAllGo : Nat → RE → Option Char → List Char → List (List Char)
  | 0, _, _, _ => []
  | f + 1, re, prv, s =>
      match matchRE re prv s with
      | some pr =>
          if pr.1.isEmpty then
            match s with
            | [] => [pr.1]
            | c :: cs => pr.1 :: findAllGo f re (some c) cs
          else pr.1 :: findAllGo f re (lastPrev pr.1 prv) pr.2
      | none =>
          match s with
          | [] => []
          | c :: cs => findAllGo f re (some c) cs

/-- `re.findall(re, s)` over a character list, starting with empty left
context. -/
def findAll (re : RE) (s : List Char) : List (List Char) :=
  findAllGo (s.length + 1) re none s

/-- `a+` as `a · a*`. -/
def plusRE (a : RE) : RE := .seq a (.star a)

/-- A literal word as a sequence of single-character classes. -/
def litRE (w : List Char) : RE :=
  match w with
  | [] => .wb
  | [c] => .cls (fun d => d == c)
  | c :: rest => .seq (.cls (fun d => d == c)) (litRE rest)

/-- `WORD_REGEX = r'\b[a-zA-Z-./]+(?:\s*/\s*[a-zA-Z-./]+)*\b'`. -/
def wordRE : RE :=
  .seq .wb
    (.seq (plusRE (.cls isTokChar))
      (.seq
        (.star (.seq (.star (.cls isWsB))
          (.seq (.cls fun c => c == '/')
            (.seq (.star (.cls isWsB)) (plusRE (.cls isTokChar))))))
        .wb))

/-- A capitalised word `[A-Z][a-zA-Z]*`. -/
def capWordRE : RE := .seq (.cls isUpperB) (.star (.cls isAlphaB))

/-- The connector alternation `(?:of|the|and|for|in|to|on)`, in source
order. -/
def connectorRE : RE :=
  .alt (litRE ['o', 'f'])
    (.alt (litRE ['t', 'h', 'e'])
      (.alt (litRE ['a', 'n', 'd'])
        (.alt (litRE ['f', 'o', 'r'])
          (.alt (litRE ['i', 'n'])
            (.alt (litRE ['t', 'o']) (litRE ['o', 'n']))))))

/-- The phrase pattern of mode `phrases`:
`\b[A-Z][a-zA-Z]*(?:\s+(?:of|the|and|for|in|to|on)\s+[A-Z][a-zA-Z]*)*`
`(?:\s+[A-Z][a-zA-Z]*)*\b`. -/
def phraseRE : RE :=
  .seq .wb
    (.seq capWordRE
      (.seq
        (.star (.seq (plusRE (.cls isWsB))
          (.seq connectorRE (.seq (plusRE (.cls isWsB)) capWordRE))))
        (.seq (.star (.seq (plusRE (.cls isWsB)) capWordRE)) .wb)))

/-- The apostrophe character, `chr 39`. -/
def apoC : Char := Char.ofNat 39

/-- A one-character apostrophe string, used to spell the contracted stop
words. -/
def apS : String := String.mk [apoC]

/-- A contracted stop word `a'b`. -/
def apw (a b : String) : String := a ++ apS ++ b

/-- The `STOP_WORDS` set of the source, transcribed in full (contractions
are assembled with `apw` so the apostrophe appears exactly as in the
source strings). -/
def STOP_WORDS : List String :=
  ["a", "about", "above", "after", "again", "against", "all", "am", "an",
   "and", "any", "are", apw ("aren") ("t"), "as", "at",
   "be", "because", "been", "before", "being", "below", "between", "both",
   "but", "by", apw ("can") ("t"), "cannot", "could",
   apw ("couldn") ("t"), "did", apw ("didn") ("t"), "do", "does",
   apw ("doesn") ("t"), "doing", apw ("don") ("t"), "down", "during",
   "each", "few", "for", "from", "further", "had", apw ("hadn") ("t"),
   "has", apw ("hasn") ("t"), "have", apw ("haven") ("t"), "having",
   "he", apw ("he") ("d"), apw ("he") ("ll"), apw ("he") ("s"),
   "her", "here", apw ("here") ("s"), "hers", "herself", "him", "himself",
   "his", "how", apw ("how") ("s"), "i", apw ("i") ("d"),
   apw ("i") ("ll"), apw ("i") ("m"), apw ("i") ("ve"), "if", "in",
   "into", "is", apw ("isn") ("t"), "it", apw ("it") ("s"), "its",
   "itself", apw ("let") ("s"), "me", "more", "most",
   apw ("mustn") ("t"), "my", "myself", "no", "nor", "not", "of", "off",
   "on", "once", "only", "or", "other", "ought", "our", "ours",
   "ourselves", "out", "over", "own", "same", apw ("shan") ("t"), "she",
   apw ("she") ("d"), apw ("she") ("ll"), apw ("she") ("s"), "should",
   apw ("shouldn") ("t"), "so", "some", "such", "than", "that",
   apw ("that") ("s"), "the", "their", "theirs", "them", "themselves",
   "then", "there", apw ("there") ("s"), "these", "they",
   apw ("they") ("d"), apw ("they") ("ll"), apw ("they") ("re"),
   apw ("they") ("ve"), "this", "those", "through", "to", "too", "under",
   "until", "up", "very", "was", apw ("wasn") ("t"), "we",
   apw ("we") ("d"), apw ("we") ("ll"), apw ("we") ("re"),
   apw ("we") ("ve"), "were", apw ("weren") ("t"), "what",
   apw ("what") ("s"), "when", apw ("when") ("s"), "where",
   apw ("where") ("s"), "which", "while", "who", apw ("who") ("s"),
   "whom", "why", apw ("why") ("s"), "with", apw ("won") ("t"), "would",
   apw ("wouldn") ("t"), "you", apw ("you") ("d"), apw ("you") ("ll"),
   apw ("you") ("re"), apw ("you") ("ve"), "your", "yours", "yourself",
   "yourselves"]

/-- `raw_words = re.findall(WORD_REGEX, text)`. -/
def wordTokens (text : String) : List String :=
  (findAll wordRE text.data).map String.mk

/-- `normalized_words = [self._normalize_term(word) for word in raw_words]`. -/
def normalizedWords (text : String) : List String :=
  (wordTokens text).map normalizeTerm

/-- `[word for word in normalized_words if word not in STOP_WORDS]`. -/
def filteredWords (text : String) : List String :=
  (normalizedWords text).filter fun w => !(STOP_WORDS.contains w)

/-- `normalized_phrases = [p.lower() for p in re.findall(phrase_regex, text)]`. -/
def phraseMatches (text : String) : List String :=
  (findAll phraseRE text.data).map fun m => lowerStr (String.mk m)

/-- `IndexerBackend._extract_terms`.  The `phrases` branch returns
`list(set(normalized_phrases + filtered_words))`; CPython's `set` fixes no
element order, so the embedding deduplicates the concatenation — it has
exactly the same members, which is all `set` guarantees. -/
def extractTerms (text mode : String) : List String :=
  if mode == ("words") then filteredWords text
  else if mode == ("words_no_filter") then normalizedWords text
  else if mode == ("phrases") then
    (phraseMatches text ++ filteredWords text).dedup
  else []

/-- The accumulating `term_map`: a `defaultdict(set)` mapping terms to
page-number sets.  Entries are kept as an association list with the page
set as a duplicate-free list (`set` fixes no order; every consumer of a
page set in the source sorts it first). -/
abbrev TermMap : Type := List (String × List Nat)

/-- `set.add`: insert a page number if not already present. -/
def addPage (s : List Nat) (p : Nat) : List Nat :=
  if p ∈ s then s else s ++ [p]

/-- `term_map[term].add(page)` on a `defaultdict(set)`: update the entry
for `term` if present, otherwise create it holding just `page`. -/
def termMapAdd : TermMap → String → Nat → TermMap
  | [], t, p => [(t, [p])]
  | (k, s) :: rest, t, p =>
      if k = t then (k, addPage s p) :: rest
      else (k, s) :: termMapAdd rest t p

/-- The inner loop `for term in terms: term_map[term].add(page)` of
`extract_from_pdf` for one page. -/
def recordPage (m : TermMap) (pg : Nat × List String) : TermMap :=
  pg.2.foldl (fun acc t => termMapAdd acc t pg.1) m

/-- The whole accumulation loop of `extract_from_pdf`, fed a list of
`(page number, terms on that page)` pairs in document order. -/
def buildIndex (l : List (Nat × List String)) : TermMap :=
  l.foldl recordPage []

/-- `term_map[term]` read back as a page set (empty for an absent term). -/
def lookupPages : TermMap → String → List Nat
  | [], _ => []
  | (k, s) :: rest, t => if k = t then s else lookupPages rest t

/-- `extract_from_pdf` restricted to its core: page texts go through
`_extract_terms` and the results are accumulated page by page,
pages numbered from 1. -/
def extractFromPdf (pages : List String) (mode : String) : TermMap :=
  buildIndex ((List.range pages.length).zip pages |>.map
    fun ip => (ip.1 + 1, extractTerms ip.2 mode))

/-- Python string `<=`: lexicographic comparison on code points (a
prefix is `<=` its extensions). -/
def pyLeChars : List Char → List Char → Bool
  | [], _ => true
  | _ :: _, [] => false
  | a :: as, b :: bs =>
      if a.toNat < b.toNat then true
      else if b.toNat < a.toNat then false
      else pyLeChars as bs

/-- Python `<=` on strings, the comparator behind `sorted` and behind the
renderer's range check on `first_letter` (which compares strings, since
indexing a Python string yields a string). -/
def pyLeStr (s t : String) : Bool := pyLeChars s.data t.data

/-- Natural-number `<=` as a Bool comparator, for `sorted` on page lists. -/
def natLeB (a b : Nat) : Bool := a ≤ b

/-- Insert into a sorted list, keeping earlier equal elements first (the
stable insertion step of a comparison sort). -/
def insSorted {α : Type} (le : α → α → Bool) (a : α) : List α → List α
  | [] => [a]
  | b :: bs => if le a b then a :: b :: bs else b :: insSorted le a bs

/-- A comparison sort.  CPython's `sorted` is also a comparison sort; on a
total preorder the two agree up to stability, and everywhere the source
sorts, the elements are pairwise distinct, so the results coincide
exactly. -/
def isort {α : Type} (le : α → α → Bool) (l : List α) : List α :=
  l.foldr (insSorted le) []

/-- Bucket of a leading character: `first_letter = term[0].upper()` is a
string, kept as the bucket label when the string comparison
`first_letter` between `A` and `Z` holds (which admits multi-character
labels such as `SS`), else the sentinel `#`. -/
def bucketOfChar (c : Char) : String :=
  if pyLeStr ("A") (pyUpperOne c) && pyLeStr (pyUpperOne c) ("Z") then
    pyUpperOne c
  else "#"

/-- Bucket of a term.  The source evaluates `term[0]` and would raise
`IndexError` on an empty term; extraction never produces one (see the
claim-C10 theorem), and the embedding totalises the empty case to `#`. -/
def bucketOf (t : String) : String :=
  match t.data with
  | [] => "#"
  | c :: _ => bucketOfChar c

/-- The keys of the term map, in insertion order. -/
def keysOf (m : TermMap) : List String := m.map Prod.fst

/-- `sorted(term_map.keys())`. -/
def sortedKeys (m : TermMap) : List String := isort pyLeStr (keysOf m)

/-- `grouped_terms[letter]`: the sorted terms whose bucket is `letter`,
in their global sorted order (the grouping loop walks the sorted keys and
appends). -/
def groupedBucket (m : TermMap) (letter : String) : List String :=
  (sortedKeys m).filter fun t => bucketOf t == letter

/-- The set of bucket labels that occur (`grouped_terms.keys()`).  Only
membership matters downstream — the labels are sorted next — so any
duplicate-removing representation is faithful. -/
def lettersOf (m : TermMap) : List String :=
  ((sortedKeys m).map bucketOf).dedup

/-- `sorted_letters` after the `#`-relocation: sort the occurring bucket
labels, then move `#`, if present, from wherever it sorted to the very
end. -/
def sortedLetters (m : TermMap) : List String :=
  if "#" ∈ isort pyLeStr (lettersOf m) then
    (isort pyLeStr (lettersOf m)).erase ("#") ++ ["#"]
  else isort pyLeStr (lettersOf m)

/-- `term.replace(chr(34), chr(92) ++ chr(34))`: escape each double quote
with a backslash. -/
def escQ (t : String) : String :=
  String.mk (t.data.flatMap fun c => if c == '"' then ['\\', '"'] else [c])

/-- `sep.join(parts)`. -/
def joinSep (sep : String) : List String → String
  | [] => ""
  | [s] => s
  | s :: rest => s ++ sep ++ joinSep sep rest

/-- `", ".join(map(str, sorted(list(term_map[term]))))`. -/
def pagesStr (ps : List Nat) : String :=
  joinSep (", ") ((isort natLeB ps).map Nat.repr)

/-- One term line:
`f'  #text(weight: "bold")[{escaped_term}]: {pages}' ++ backslash ++ newline`. -/
def termLine (m : TermMap) (t : String) : String :=
  "  #text(weight: \"bold\")[" ++ escQ t ++ "]: " ++
    pagesStr (lookupPages m t) ++ "\\\n"

/-- The strings written for one bucket block: the blank separator line
(for every block after the first), the bucket comment, the heading (with
`#` escaped for the output format), the rule, the vertical space, then one
line per term of the bucket. -/
def bucketChunks (m : TermMap) (letter : String) (first : Bool) : List String :=
  (if first then [] else ["\n"]) ++
  ["  // --- " ++ letter ++ " ---\n",
   "  #text(size: 18pt, weight: \"bold\")[" ++
     (if letter == "#" then "\\#" else letter) ++ "]\n",
   "  #line(length: 100%)\n",
   "  #v(0.8em)\n"] ++
  (groupedBucket m letter).map (termLine m)

/-- The bucket blocks for a label sequence, flagging the first. -/
def bucketsGo (m : TermMap) : Bool → List String → List String
  | _, [] => []
  | first, L :: rest => bucketChunks m L first ++ bucketsGo m false rest

/-- The fixed preamble written before the first bucket, one string per
`f.write` call of the source. -/
def headerChunks : List String :=
  ["// ===============================================\n",
   "// Typst Index Layout by Mutro\n",
   "// Based on previously approved format\n",
   "// ===============================================\n\n",
   "// 1. Document & Page Setup\n",
   "#set document(title: \"Index table\", author: \"Mutro\")\n",
   "#set page(paper: \"a4\", margin: (x: 2cm, y: 2.5cm))\n\n",
   "// 2. Font Setup\n",
   "#set text(font: (\"New Computer Modern\", \"Noto Serif CJK SC\"), size: 10pt)\n\n",
   "// 3. Title Section\n",
   "#align(center)[\n",
   "  #text(size: 24pt, weight: 600)[Index]\n",
   "]\n#v(2em)\n\n",
   "// 4. Main Content\n",
   "#columns(2, gutter: 1.5em)[\n"]

/-- `IndexerBackend.save_results_as_txt` as its write trace: the exact
sequence of strings handed to `f.write`, in order.  The output file's
content after `k` successful writes is the concatenation of the first `k`
chunks. -/
def saveChunks (m : TermMap) : List String :=
  headerChunks ++ bucketsGo m true (sortedLetters m) ++ ["]"]

/-- Concatenation of a write trace: the file content it produces. -/
def strJoin : List String → String
  | [] => ""
  | s :: rest => s ++ strJoin rest

/-- Adjacency invariant used to reason about `collapseSlash`: the pair
`(a, b)` has no whitespace touching a slash. -/
def okPair (a b : Char) : Bool :=
  !(isWsB a && b == '/') && !(a == '/' && isWsB b)

/-- A character list is `goodCh` when no slash in it has whitespace
immediately before or after it — exactly the strings `collapseSlash`
leaves unchanged. -/
def goodCh : List Char → Bool
  | [] => true
  | [_] => true
  | a :: b :: t => okPair a b && goodCh (b :: t)

/-- Syntactic guarantee that a regex can only match by consuming at least
one character: a class always consumes, a boundary never does, a sequence
consumes if either part does, an alternation if both branches do, a star
may stop immediately. -/
def consumesRE : RE → Bool
  | .cls _ => true
  | .wb => false
  | .seq a b => consumesRE a || consumesRE b
  | .alt a b => consumesRE a && consumesRE b
  | .star _ => false

/-- The page set of a term in the accumulated index, as a finite set. -/
def pagesOf (m : TermMap) (t : String) : Finset Nat :=
  (lookupPages m t).toFinset

/-- The page set a term ought to receive from a batch of
`(page, terms)` pairs: all first components whose term list mentions the
term. -/
def pagesForPairs (l : List (Nat × List String)) (t : String) : Finset Nat :=
  ((l.filter fun e => e.2.contains t).map Prod.fst).toFinset

/-- Mode dispatch, `words` branch. -/
theorem extractTerms_words (text : String) :
    extractTerms text ("words") = filteredWords text := rfl

/-- Mode dispatch, `words_no_filter` branch. -/
theorem extractTerms_nofilter (text : String) :
    extractTerms text ("words_no_filter") = normalizedWords text := rfl

/-- Mode dispatch, `phrases` branch. -/
theorem extractTerms_phrases (text : String) :
    extractTerms text ("phrases") =
      (phraseMatches text ++ filteredWords text).dedup := rfl

/-- Claim C4: for every page text, every term extracted in mode `words`
is also extracted in mode `words_no_filter` — stop-word filtering only
removes terms, never adds any. -/
theorem claim4_filter_subset (text t : String)
    (h : t ∈ extractTerms text ("words")) :
    t ∈ extractTerms text ("words_no_filter") := by
  rw [extractTerms_words] at h
  rw [extractTerms_nofilter]
  exact List.mem_of_mem_filter h

/-- Witness for claim C4 at the page text `dog`. -/
theorem claim4_witness :
    ("dog") ∈ extractTerms ("dog") ("words") ∧
    ("dog") ∈ extractTerms ("dog") ("words_no_filter") :=
  ⟨by decide, claim4_filter_subset ("dog") ("dog") (by decide)⟩

/-- Claim C9: an unrecognized extraction mode yields no terms — for any
mode other than `words`, `words_no_filter` and `phrases`, `_extract_terms`
returns the empty collection rather than failing. -/
theorem claim9_unknown_mode (text mode : String)
    (h1 : mode ≠ "words") (h2 : mode ≠ "words_no_filter")
    (h3 : mode ≠ "phrases") :
    extractTerms text mode = [] := by
  unfold extractTerms
  simp only [beq_iff_eq]
  rw [if_neg h1, if_neg h2, if_neg h3]

/-- Witness for claim C9 at the mode string `keywords`. -/
theorem claim9_witness :
    ("keywords" : String) ≠ "words" ∧
    ("keywords" : String) ≠ "words_no_filter" ∧
    ("keywords" : String) ≠ "phrases" ∧
    extractTerms ("dog cat") ("keywords") = [] :=
  ⟨by decide, by decide, by decide,
    claim9_unknown_mode ("dog cat") ("keywords")
      (by decide) (by decide) (by decide)⟩

/-- Claim C1 fails as stated: in mode `phrases`, the phrase regex starts
matching at the capitalised `The`, so the single phrase term extracted
from `The Quick Brown Fox` is `the quick brown fox`; the result does not
include `quick brown fox` as a phrase term. -/
theorem claim1_counterexample :
    ("quick brown fox") ∉ extractTerms ("The Quick Brown Fox") ("phrases") := by
  decide

/-- Claim C1 (amended): on `The Quick Brown Fox`, mode `words` returns
exactly the terms quick, brown, fox (the stop word `the` is removed), and
mode `phrases` returns `the quick brown fox` as a single phrase term in
addition to the filtered single words. -/
theorem claim1_amended :
    extractTerms ("The Quick Brown Fox") ("words") =
      ["quick", "brown", "fox"] ∧
    extractTerms ("The Quick Brown Fox") ("phrases") =
      ["the quick brown fox", "quick", "brown", "fox"] := by
  exact ⟨by decide, by decide⟩

/-- Claim C2 fails as stated: in mode `words` the page text `cat cat`
extracts to the list `[cat, cat]`, which contains a duplicate —
`_extract_terms` deduplicates only in mode `phrases`. -/
theorem claim2_counterexample :
    extractTerms ("cat cat") ("words") = ["cat", "cat"] ∧
    ¬ (extractTerms ("cat cat") ("words")).Nodup := by
  exact ⟨by decide, by decide⟩

/-- A `set.add` adds one element to the page set. -/
theorem toFinset_addPage (s : List Nat) (p : Nat) :
    (addPage s p).toFinset = insert p s.toFinset := by
  by_cases h : p ∈ s
  · rw [addPage, if_pos h]
    exact (Finset.insert_eq_self.mpr (List.mem_toFinset.mpr h)).symm
  · rw [addPage, if_neg h, List.toFinset_append]
    rw [Finset.union_comm]
    simp [Finset.insert_eq]

/-- Updating one term's entry changes only that term's page set, by a
`set.add`. -/
theorem pagesOf_termMapAdd (m : TermMap) (t : String) (p : Nat)
    (t' : String) :
    pagesOf (termMapAdd m t p) t' =
      if t' = t then insert p (pagesOf m t') else pagesOf m t' := by
  induction m with
  | nil =>
      by_cases h : t' = t
      · subst h
        simp [pagesOf, termMapAdd, lookupPages, addPage]
      · have h' : t ≠ t' := fun hh => h hh.symm
        simp [pagesOf, termMapAdd, lookupPages, h, h']
  | cons e rest ih =>
      obtain ⟨k, s⟩ := e
      by_cases hk : k = t
      · subst hk
        by_cases h : t' = k
        · subst h
          simp [pagesOf, termMapAdd, lookupPages, toFinset_addPage]
        · have h' : k ≠ t' := fun hh => h hh.symm
          simp [pagesOf, termMapAdd, lookupPages, h, h']
      · by_cases h : t' = k
        · subst h
          have h2 : ¬ t' = t := hk
          simp [pagesOf, termMapAdd, lookupPages, hk, h2]
        · have h' : k ≠ t' := fun hh => h hh.symm
          simp only [pagesOf, termMapAdd, if_neg hk, lookupPages, if_neg h']
          exact ih

/-- Recording one page's term list adds that page to exactly the terms
on the list. -/
theorem pagesOf_recordPage (m : TermMap) (p : Nat) (ts : List String)
    (t : String) :
    pagesOf (recordPage m (p, ts)) t =
      if t ∈ ts then insert p (pagesOf m t) else pagesOf m t := by
  induction ts generalizing m with
  | nil => simp [recordPage]
  | cons t0 ts ih =>
      show pagesOf (List.foldl _ (termMapAdd m t0 p) ts) t = _
      have step : recordPage (termMapAdd m t0 p) (p, ts) =
          List.foldl (fun acc t => termMapAdd acc t p) (termMapAdd m t0 p) ts :=
        rfl
      rw [← step, ih, pagesOf_termMapAdd]
      by_cases h0 : t = t0
      · subst h0
        by_cases hts : t ∈ ts <;>
          simp [hts, Finset.insert_idem]
      · have : (t ∈ t0 :: ts) ↔ t ∈ ts := by
          simp [List.mem_cons, h0]
        by_cases hts : t ∈ ts <;> simp [hts, h0, this]

/-- Folding `recordPage` over a batch unions in exactly the pages owed to
each term. -/
theorem pagesOf_foldl (l : List (Nat × List String)) (m : TermMap)
    (t : String) :
    pagesOf (l.foldl recordPage m) t = pagesOf m t ∪ pagesForPairs l t := by
  induction l generalizing m with
  | nil => simp [pagesForPairs]
  | cons e l ih =>
      obtain ⟨p, ts⟩ := e
      rw [List.foldl_cons, ih, pagesOf_recordPage]
      by_cases h : t ∈ ts
      · rw [if_pos h]
        have hc : (ts.contains t) = true := List.elem_eq_true_of_mem h
        simp only [pagesForPairs, List.filter_cons, hc, List.map_cons,
          List.toFinset_cons, if_pos]
        rw [Finset.insert_union, Finset.union_insert]
      · rw [if_neg h]
        have hc : (ts.contains t) = false := by
          rw [List.contains_eq_any_beq]
          simp only [List.any_eq_false]
          intro x hx
          rw [beq_iff_eq]
          intro hxt
          exact h (hxt ▸ hx)
        simp only [pagesForPairs, List.filter_cons, hc, Bool.false_eq_true,
          if_false]

/-- Claim C5: accumulation is order-independent — recording any
permutation of the `(page, terms)` pairs into an empty index produces the
same term-to-page-set mapping, because the index is a pure union over
page sets. -/
theorem claim5_order_independent (l1 l2 : List (Nat × List String))
    (h : l1.Perm l2) (t : String) :
    pagesOf (buildIndex l1) t = pagesOf (buildIndex l2) t := by
  unfold buildIndex
  rw [pagesOf_foldl, pagesOf_foldl]
  have : pagesForPairs l1 t = pagesForPairs l2 t :=
    List.toFinset_eq_of_perm _ _ ((h.filter _).map _)
  rw [this]

/-- Witness for claim C5: swapping two recorded pages leaves the page set
of `cat` unchanged. -/
theorem claim5_witness :
    pagesOf (buildIndex [(1, ["cat"]), (2, ["dog"])]) ("cat") =
      pagesOf (buildIndex [(2, ["dog"]), (1, ["cat"])]) ("cat") :=
  claim5_order_independent _ _ (List.Perm.swap _ _ _) ("cat")

/-- Claim C2 (amended): `_extract_terms` deduplicates within a page only
in mode `phrases`; in the other modes the returned list may repeat a term,
but merging into the index deduplicates anyway — the index maps terms to
page sets, so recording a page's term list gives the same index as
recording its deduplication. -/
theorem claim2_amended :
    (∀ text : String, (extractTerms text ("phrases")).Nodup) ∧
    (∀ (m : TermMap) (p : Nat) (ts : List String) (t : String),
      pagesOf (recordPage m (p, ts)) t =
        pagesOf (recordPage m (p, ts.dedup)) t) := by
  constructor
  · intro text
    rw [extractTerms_phrases]
    exact List.nodup_dedup _
  · intro m p ts t
    rw [pagesOf_recordPage, pagesOf_recordPage]
    by_cases h : t ∈ ts
    · rw [if_pos h, if_pos (List.mem_dedup.mpr h)]
    · rw [if_neg h, if_neg (fun hd => h (List.mem_dedup.mp hd))]

/-- Claim C7: a two-page document whose page 1 yields `cat` and whose
page 2 yields `cat` and `dog` accumulates to the index
`cat : 1, 2 / dog : 2`, and the write trace renders bucket `C` (with the
`cat` line, pages `1, 2`, trailing hard break) before bucket `D` (with the
`dog` line, page `2`). -/
theorem claim7_example :
    keysOf (buildIndex [(1, ["cat"]), (2, ["cat", "dog"])]) =
      ["cat", "dog"] ∧
    pagesOf (buildIndex [(1, ["cat"]), (2, ["cat", "dog"])]) ("cat") =
      ({1, 2} : Finset Nat) ∧
    pagesOf (buildIndex [(1, ["cat"]), (2, ["cat", "dog"])]) ("dog") =
      ({2} : Finset Nat) ∧
    saveChunks (buildIndex [(1, ["cat"]), (2, ["cat", "dog"])]) =
      headerChunks ++
      ["  // --- C ---\n",
       "  #text(size: 18pt, weight: \"bold\")[C]\n",
       "  #line(length: 100%)\n",
       "  #v(0.8em)\n",
       "  #text(weight: \"bold\")[cat]: 1, 2\\\n",
       "\n",
       "  // --- D ---\n",
       "  #text(size: 18pt, weight: \"bold\")[D]\n",
       "  #line(length: 100%)\n",
       "  #v(0.8em)\n",
       "  #text(weight: \"bold\")[dog]: 2\\\n",
       "]"] := by
  exact ⟨by decide, by decide, by decide, by decide⟩

/-- Concatenation of write traces splits over list append. -/
theorem strJoin_append (l1 l2 : List String) :
    strJoin (l1 ++ l2) = strJoin l1 ++ strJoin l2 := by
  induction l1 with
  | nil =>
      show strJoin l2 = "" ++ strJoin l2
      apply String.ext
      simp
  | cons s rest ih =>
      show s ++ strJoin (rest ++ l2) = s ++ strJoin rest ++ strJoin l2
      rw [ih, String.append_assoc]

/-- Claim C3 fails as stated: `save_results_as_txt` does not hold the
whole rendering back until the file content is complete — the write trace
for the one-term map `cat : 1` has a reachable intermediate file state
(after the first of its many writes) that is neither empty nor the full
output, i.e. a write failure there leaves a partially written file. -/
theorem claim3_counterexample :
    strJoin ((saveChunks [("cat", [1])]).take 1) ≠ "" ∧
    strJoin ((saveChunks [("cat", [1])]).take 1) ≠
      strJoin (saveChunks [("cat", [1])]) := by
  exact ⟨by decide, by decide⟩

/-- Claim C3 (amended): the bucket grouping is computed before the file
is opened, but the rendered output is written incrementally, so a write
failure can leave a partially written file; every such partial file is,
however, a prefix of the deterministic full rendering — after `k`
successful writes the file content extends to the full output. -/
theorem claim3_amended (m : TermMap) (k : Nat) :
    ∃ rest : String,
      strJoin (saveChunks m) = strJoin ((saveChunks m).take k) ++ rest := by
  refine ⟨strJoin ((saveChunks m).drop k), ?_⟩
  conv_lhs => rw [← List.take_append_drop k (saveChunks m)]
  exact strJoin_append _ _

/-- The insertion step permutes: inserting `a` is `a ::` up to order. -/
theorem insSorted_perm {α : Type} (le : α → α → Bool) (a : α)
    (l : List α) : List.Perm (insSorted le a l) (a :: l) := by
  induction l with
  | nil => exact List.Perm.refl _
  | cons b bs ih =>
      unfold insSorted
      split
      · exact List.Perm.refl _
      · exact List.Perm.trans (ih.cons b) (List.Perm.swap a b bs)

/-- The sort permutes its input. -/
theorem isort_perm {α : Type} (le : α → α → Bool) (l : List α) :
    List.Perm (isort le l) l := by
  induction l with
  | nil => exact List.Perm.refl _
  | cons a l ih =>
      exact List.Perm.trans (insSorted_perm le a _) (ih.cons a)

/-- Inserting into a `le`-sorted list keeps it sorted, for a total and
transitive comparator. -/
theorem pairwise_insSorted {α : Type} (le : α → α → Bool)
    (htot : ∀ a b, le a b = true ∨ le b a = true)
    (htrans : ∀ a b c, le a b = true → le b c = true → le a c = true)
    (a : α) (l : List α) (h : l.Pairwise fun x y => le x y = true) :
    (insSorted le a l).Pairwise fun x y => le x y = true := by
  induction l with
  | nil => simp [insSorted]
  | cons b bs ih =>
      rw [List.pairwise_cons] at h
      obtain ⟨hb, hbs⟩ := h
      unfold insSorted
      split
      case isTrue hab =>
        rw [List.pairwise_cons]
        refine ⟨?_, List.pairwise_cons.mpr ⟨hb, hbs⟩⟩
        intro x hx
        rcases List.mem_cons.mp hx with hx | hx
        · exact hx ▸ hab
        · exact htrans a b x hab (hb x hx)
      case isFalse hab =>
        rw [List.pairwise_cons]
        refine ⟨?_, ih hbs⟩
        intro x hx
        rcases List.mem_cons.mp ((insSorted_perm le a bs).mem_iff.mp hx) with
          hx | hx
        · subst hx
          exact (htot x b).resolve_left hab
        · exact hb x hx

/-- The sort sorts, for a total and transitive comparator. -/
theorem pairwise_isort {α : Type} (le : α → α → Bool)
    (htot : ∀ a b, le a b = true ∨ le b a = true)
    (htrans : ∀ a b c, le a b = true → le b c = true → le a c = true)
    (l : List α) :
    (isort le l).Pairwise fun x y => le x y = true := by
  induction l with
  | nil => simp [isort]
  | cons a l ih => exact pairwise_insSorted le htot htrans a _ ih

/-- The string comparator is total. -/
theorem pyLeChars_total : ∀ (a b : List Char),
    pyLeChars a b = true ∨ pyLeChars b a = true := by
  intro a
  induction a with
  | nil => intro b; left; rfl
  | cons x xs ih =>
      intro b
      cases b with
      | nil => right; rfl
      | cons y ys =>
          by_cases h1 : x.toNat < y.toNat
          · left
            rw [pyLeChars, if_pos h1]
          · by_cases h2 : y.toNat < x.toNat
            · right
              rw [pyLeChars, if_pos h2]
            · rcases ih ys with h | h
              · left
                rw [pyLeChars, if_neg h1, if_neg h2]
                exact h
              · right
                rw [pyLeChars, if_neg h2, if_neg h1]
                exact h

/-- The string comparator is transitive. -/
theorem pyLeChars_trans : ∀ (a b c : List Char),
    pyLeChars a b = true → pyLeChars b c = true →
      pyLeChars a c = true := by
  intro a
  induction a with
  | nil => intro b c _ _; rfl
  | cons x xs ih =>
      intro b c hab hbc
      cases b with
      | nil =>
          rw [pyLeChars] at hab
          exact absurd hab (by simp)
      | cons y ys =>
          cases c with
          | nil =>
              rw [pyLeChars] at hbc
              exact absurd hbc (by simp)
          | cons z zs =>
              have hab2 : x.toNat < y.toNat ∨
                  (x.toNat = y.toNat ∧ pyLeChars xs ys = true) := by
                by_cases hxy : x.toNat < y.toNat
                · exact Or.inl hxy
                · by_cases hyx : y.toNat < x.toNat
                  · rw [pyLeChars, if_neg hxy, if_pos hyx] at hab
                    exact absurd hab (by simp)
                  · rw [pyLeChars, if_neg hxy, if_neg hyx] at hab
                    exact Or.inr ⟨by omega, hab⟩
              have hbc2 : y.toNat < z.toNat ∨
                  (y.toNat = z.toNat ∧ pyLeChars ys zs = true) := by
                by_cases hyz : y.toNat < z.toNat
                · exact Or.inl hyz
                · by_cases hzy : z.toNat < y.toNat
                  · rw [pyLeChars, if_neg hyz, if_pos hzy] at hbc
                    exact absurd hbc (by simp)
                  · rw [pyLeChars, if_neg hyz, if_neg hzy] at hbc
                    exact Or.inr ⟨by omega, hbc⟩
              rcases hab2 with h1 | ⟨h1, h1t⟩ <;>
                rcases hbc2 with h2 | ⟨h2, h2t⟩
              · rw [pyLeChars, if_pos (by omega)]
              · rw [pyLeChars, if_pos (by omega)]
              · rw [pyLeChars, if_pos (by omega)]
              · rw [pyLeChars, if_neg (by omega), if_neg (by omega)]
                exact ih ys zs h1t h2t

/-- The Python string comparator is total. -/
theorem pyLeStr_total (a b : String) :
    pyLeStr a b = true ∨ pyLeStr b a = true :=
  pyLeChars_total a.data b.data

/-- The Python string comparator is transitive. -/
theorem pyLeStr_trans (a b c : String) (h1 : pyLeStr a b = true)
    (h2 : pyLeStr b c = true) : pyLeStr a c = true :=
  pyLeChars_trans a.data b.data c.data h1 h2

/-- On single characters the string comparator is the code-point order. -/
theorem pyLeChars_single (a b : Char) :
    pyLeChars [a] [b] = decide (a.toNat ≤ b.toNat) := by
  rw [pyLeChars]
  by_cases h1 : a.toNat < b.toNat
  · rw [if_pos h1]
    exact (decide_eq_true (by omega)).symm
  · rw [if_neg h1]
    by_cases h2 : b.toNat < a.toNat
    · rw [if_pos h2]
      exact (decide_eq_false (by omega)).symm
    · rw [if_neg h2]
      show true = _
      exact (decide_eq_true (by omega)).symm

/-- Claim C6 fails as stated: the source buckets by
`term[0].upper()` under Python's full Unicode case mapping, so a term
whose first character is U+0131 (dotless i, not an ASCII letter) is
placed in bucket `I`, not in bucket `#`; likewise U+00DF (sharp s) gets
the two-character bucket `SS`. -/
theorem claim6_counterexample :
    isAlphaB 'ı' = false ∧ bucketOf ("ıce") ≠ "#" ∧
    bucketOf ("ıce") = "I" ∧ bucketOf ("ßar") = "SS" := by
  exact ⟨by decide, by decide, by decide, by decide⟩

/-- Claim C6 (amended): rendered bucket blocks appear in Python string
sort order with the `#` bucket forced last (even though `#` sorts below
the letters); the bucket label is the full-case uppercase of the term's
first character whenever that string lies between `A` and `Z` — which
admits non-ASCII first characters such as dotless i (bucket `I`), long s
(bucket `S`) and sharp s (two-character bucket `SS`) — and every term
whose first character is an ASCII character that is not a letter, such as
the digit-leading `3d-printing`, is placed in bucket `#`. -/
theorem claim6_amended :
    (∀ m : TermMap,
      (((sortedLetters m).filter fun s => !(s == "#")).Pairwise
        fun a b => pyLeStr a b = true ∧ a ≠ b) ∧
      ("#" ∈ sortedLetters m →
        (sortedLetters m).getLast? = some ("#"))) ∧
    (∀ c : Char, c.toNat < 128 → isAlphaB c = false →
      bucketOfChar c = "#") ∧
    bucketOf ("3d-printing") = "#" ∧
    bucketOf ("ıce") = "I" ∧
    bucketOf ("ſoo") = "S" ∧
    bucketOf ("ßar") = "SS" ∧
    sortedLetters [("3d-printing", [3]), ("zebra", [1])] = ["Z", "#"] := by
  refine ⟨?_, ?_, by decide, by decide, by decide, by decide, by decide⟩
  · intro m
    have hpw :
        (isort pyLeStr (lettersOf m)).Pairwise
          fun x y => pyLeStr x y = true :=
      pairwise_isort pyLeStr pyLeStr_total pyLeStr_trans _
    have hnd : (isort pyLeStr (lettersOf m)).Nodup :=
      (isort_perm pyLeStr _).nodup_iff.mpr (List.nodup_dedup _)
    have hlt :
        (isort pyLeStr (lettersOf m)).Pairwise
          fun a b => pyLeStr a b = true ∧ a ≠ b := hpw.and hnd
    rw [sortedLetters]
    split
    case isTrue hmem =>
      constructor
      · rw [List.filter_append]
        have hlast : List.filter (fun s => !(s == "#")) [("#")] = [] := by
          decide
        rw [hlast, List.append_nil]
        exact List.Pairwise.sublist
          ((List.filter_sublist _).trans (List.erase_sublist _ _)) hlt
      · intro _
        rw [List.getLast?_concat]
    case isFalse hmem =>
      exact ⟨List.Pairwise.sublist (List.filter_sublist _) hlt,
        fun h => absurd h hmem⟩
  · intro c hAscii hc
    have h1 : ¬ (97 ≤ c.toNat ∧ c.toNat ≤ 122) := by
      simp only [isAlphaB, Bool.or_eq_false_iff, Bool.and_eq_false_iff,
        decide_eq_false_iff_not] at hc
      omega
    have h2 : ¬ (65 ≤ c.toNat ∧ c.toNat ≤ 90) := by
      simp only [isAlphaB, Bool.or_eq_false_iff, Bool.and_eq_false_iff,
        decide_eq_false_iff_not] at hc
      omega
    have hu : pyUpperOne c = String.singleton c := by
      rw [pyUpperOne, if_neg h1]
      iterate 16 rw [if_neg (by omega)]
    have hcond :
        (pyLeStr ("A") (pyUpperOne c) &&
          pyLeStr (pyUpperOne c) ("Z")) = false := by
      rw [hu]
      show (pyLeChars ['A'] [c] && pyLeChars [c] ['Z']) = false
      rw [pyLeChars_single, pyLeChars_single]
      have hA : ('A').toNat = 65 := rfl
      have hZ : ('Z').toNat = 90 := rfl
      rw [hA, hZ]
      rcases (by omega : c.toNat < 65 ∨ 90 < c.toNat) with h | h
      · rw [decide_eq_false (by omega : ¬ (65 ≤ c.toNat))]
        rfl
      · rw [decide_eq_false (by omega : ¬ (c.toNat ≤ 90))]
        rw [Bool.and_false]
    rw [bucketOfChar, hcond]
    rw [if_neg]
    simp

/-- Witness for the amended claim C6, at a concrete two-term map with a
digit-leading term and at the ASCII non-letter brace character. -/
theorem claim6_amended_witness :
    ("#" ∈ sortedLetters [("3d-printing", [3]), ("zebra", [1])] ∧
      (sortedLetters [("3d-printing", [3]), ("zebra", [1])]).getLast? =
        some ("#")) ∧
    (('3').toNat < 128 ∧ isAlphaB '3' = false ∧
      bucketOfChar '3' = "#") :=
  ⟨⟨by decide,
      (claim6_amended.1 [("3d-printing", [3]), ("zebra", [1])]).2
        (by decide)⟩,
    ⟨by decide, by decide,
      claim6_amended.2.1 '3' (by decide) (by decide)⟩⟩

/-- The head reported by `head?` is a member. -/
theorem head?_mem {α : Type} {l : List α} {a : α} (h : l.head? = some a) :
    a ∈ l := by
  cases l with
  | nil => simp at h
  | cons b t =>
      rw [List.head?_cons] at h
      injection h with h1
      rw [← h1]
      exact List.mem_cons_self _ _

/-- A regex that syntactically consumes cannot match emptily: every
candidate the engine lists has a non-empty consumed prefix. -/
theorem matchL_consumes :
    ∀ (f : Nat) (re : RE) (prv : Option Char) (s : List Char)
      (pr : List Char × List Char),
      consumesRE re = true → pr ∈ matchL f re prv s → pr.1 ≠ [] := by
  intro f
  induction f with
  | zero =>
      intro re prv s pr _ hm
      simp [matchL] at hm
  | succ f ih =>
      intro re prv s pr hre hm
      cases re with
      | cls p =>
          cases s with
          | nil => simp [matchL] at hm
          | cons c rest =>
              simp only [matchL] at hm
              split at hm
              · rw [List.mem_singleton] at hm
                rw [hm]
                simp
              · simp at hm
      | wb => simp [consumesRE] at hre
      | seq a b =>
          simp only [consumesRE, Bool.or_eq_true] at hre
          simp only [matchL, List.mem_flatMap, List.mem_map] at hm
          obtain ⟨pr1, h1, qr, h2, heq⟩ := hm
          intro hnil
          rw [← heq] at hnil
          have hboth := List.append_eq_nil.mp hnil
          rcases hre with hre | hre
          · exact ih a prv s pr1 hre h1 hboth.1
          · exact ih b _ _ qr hre h2 hboth.2
      | alt a b =>
          simp only [consumesRE, Bool.and_eq_true] at hre
          simp only [matchL, List.mem_append] at hm
          rcases hm with hm | hm
          · exact ih a prv s pr hre.1 hm
          · exact ih b prv s pr hre.2 hm
      | star a => simp [consumesRE] at hre

/-- For a regex that syntactically consumes, every string `findall`
returns is non-empty. -/
theorem findAllGo_ne (re : RE) (hre : consumesRE re = true) :
    ∀ (f : Nat) (prv : Option Char) (s : List Char) (m : List Char),
      m ∈ findAllGo f re prv s → m ≠ [] := by
  intro f
  induction f with
  | zero =>
      intro prv s m hm
      simp [findAllGo] at hm
  | succ f ih =>
      intro prv s m hm
      cases hmr : matchRE re prv s with
      | some pr =>
          have hpr : pr ∈ matchL (reFuel re s) re prv s := by
            rw [matchRE] at hmr
            exact head?_mem hmr
          have hne := matchL_consumes _ re prv s pr hre hpr
          have hfalse : pr.1.isEmpty = false := by
            cases h1 : pr.1 with
            | nil => exact absurd h1 hne
            | cons _ _ => rfl
          simp only [findAllGo, hmr, hfalse, Bool.false_eq_true,
            if_false] at hm
          rcases List.mem_cons.mp hm with hm | hm
          · exact hm ▸ hne
          · exact ih _ _ _ hm
      | none =>
          simp only [findAllGo, hmr] at hm
          cases s with
          | nil => simp at hm
          | cons c cs => exact ih _ _ _ hm

/-- Collapsing slashes keeps a non-empty string non-empty: the first scan
step emits either a slash or the first character. -/
theorem collapseSlash_ne (c : Char) (cs : List Char) :
    collapseSlash (c :: cs) ≠ [] := by
  show collapseGo (cs.length + 1) (c :: cs) ≠ []
  cases htr : trySlash (c :: cs) with
  | some rest => simp [collapseGo, htr]
  | none => simp [collapseGo, htr]

/-- Normalizing a non-empty term yields a non-empty term. -/
theorem normalizeTerm_ne (t : String) (h : t.data ≠ []) :
    normalizeTerm t ≠ "" := by
  intro hc
  have hdata : lowerList (collapseSlash t.data) = [] :=
    congrArg String.data hc
  cases hd : t.data with
  | nil => exact h hd
  | cons c cs =>
      rw [hd] at hdata
      exact collapseSlash_ne c cs (List.map_eq_nil_iff.mp hdata)

/-- Every normalized word of a page is a non-empty string. -/
theorem normalizedWords_ne (text t : String)
    (h : t ∈ normalizedWords text) : t ≠ "" := by
  rw [normalizedWords] at h
  obtain ⟨w, hw, rfl⟩ := List.mem_map.mp h
  apply normalizeTerm_ne
  rw [wordTokens] at hw
  obtain ⟨mm, hmm, rfl⟩ := List.mem_map.mp hw
  show mm ≠ []
  rw [findAll] at hmm
  exact findAllGo_ne wordRE (by decide) _ _ _ _ hmm

/-- Lowercasing a non-empty character list as a string stays non-empty. -/
theorem lowerStr_mk_ne (mm : List Char) (h : mm ≠ []) :
    lowerStr (String.mk mm) ≠ "" := by
  intro hc
  have : lowerList mm = [] := congrArg String.data hc
  exact h (List.map_eq_nil_iff.mp this)

/-- Claim C10: in every mode and for every input text, every term
returned by `_extract_terms` is a non-empty string (both regexes must
consume at least one character), so the renderer's `term[0]` bucket
access never fails on keys produced by extraction. -/
theorem claim10_terms_nonempty (text mode t : String)
    (h : t ∈ extractTerms text mode) : t ≠ "" := by
  rw [extractTerms] at h
  split at h
  · exact normalizedWords_ne text t (List.mem_of_mem_filter h)
  · split at h
    · exact normalizedWords_ne text t h
    · split at h
      · rcases List.mem_append.mp (List.mem_dedup.mp h) with hp | hw
        · rw [phraseMatches] at hp
          obtain ⟨mm, hmm, rfl⟩ := List.mem_map.mp hp
          apply lowerStr_mk_ne
          rw [findAll] at hmm
          exact findAllGo_ne phraseRE (by decide) _ _ _ _ hmm
        · exact normalizedWords_ne text t (List.mem_of_mem_filter hw)
      · simp at h

/-- Witness for claim C10 at the page text `cat`. -/
theorem claim10_witness :
    ("cat") ∈ extractTerms ("cat") ("words") ∧ ("cat" : String) ≠ "" :=
  ⟨by decide, claim10_terms_nonempty ("cat") ("words") ("cat") (by decide)⟩

/-- A character revealed by `dropWhile` fails the dropped predicate. -/
theorem dropWhile_head_not {p : Char → Bool} :
    ∀ {l : List Char} {c : Char} {rest : List Char},
      l.dropWhile p = c :: rest → p c = false := by
  intro l
  induction l with
  | nil =>
      intro c rest h
      simp [List.dropWhile] at h
  | cons a t ih =>
      intro c rest h
      rw [List.dropWhile_cons] at h
      split at h
      · exact ih h
      · rename_i hpa
        injection h with h1 _
        subst h1
        cases hb : p a with
        | false => rfl
        | true => exact absurd hb hpa

/-- The slash pattern matches immediately at a slash. -/
theorem trySlash_slash (cs : List Char) :
    trySlash ('/' :: cs) = some (cs.dropWhile isWsB) := by
  have h : isWsB '/' = false := by decide
  rw [trySlash, List.dropWhile_cons, h]
  simp

/-- The slash pattern fails at a non-whitespace non-slash character. -/
theorem trySlash_notWs_notSlash {c : Char} (cs : List Char)
    (h1 : isWsB c = false) (h2 : (c == '/') = false) :
    trySlash (c :: cs) = none := by
  rw [trySlash, List.dropWhile_cons, h1]
  simp [h2]

/-- The slash pattern skips leading whitespace. -/
theorem trySlash_ws {c : Char} (cs : List Char) (h : isWsB c = true) :
    trySlash (c :: cs) = trySlash cs := by
  rw [trySlash, trySlash, List.dropWhile_cons, h]
  simp

/-- Tails of good lists are good. -/
theorem goodCh_cons {a : Char} {l : List Char}
    (h : goodCh (a :: l) = true) : goodCh l = true := by
  cases l with
  | nil => rfl
  | cons b t =>
      simp only [goodCh, Bool.and_eq_true] at h
      exact h.2

/-- The leading pair of a good list is fine. -/
theorem goodCh_pair {a b : Char} {t : List Char}
    (h : goodCh (a :: b :: t) = true) : okPair a b = true := by
  simp only [goodCh, Bool.and_eq_true] at h
  exact h.1

/-- A fine pair cannot be whitespace followed by a slash. -/
theorem okPair_ws_slash {a b : Char} (h : okPair a b = true)
    (ha : isWsB a = true) : (b == '/') = false := by
  cases hb : (b == '/') with
  | false => rfl
  | true =>
      rw [okPair, ha, hb] at h
      simp at h

/-- A fine pair cannot be a slash followed by whitespace. -/
theorem okPair_slash_ws {a b : Char} (h : okPair a b = true)
    (ha : (a == '/') = true) : isWsB b = false := by
  cases hb : isWsB b with
  | false => rfl
  | true =>
      rw [okPair, ha, hb] at h
      simp at h

/-- In a good list, whitespace-skipping can only reveal a slash that was
already at the head. -/
theorem goodCh_dropWhile_slash :
    ∀ (s : List Char), goodCh s = true →
      ∀ {r : List Char}, s.dropWhile isWsB = '/' :: r →
        ∃ r', s = '/' :: r' := by
  intro s
  induction s with
  | nil =>
      intro _ r h
      simp [List.dropWhile] at h
  | cons a t ih =>
      intro hg r h
      rw [List.dropWhile_cons] at h
      split at h
      case isTrue hws =>
        obtain ⟨r', hr'⟩ := ih (goodCh_cons hg) h
        subst hr'
        have hok := goodCh_pair hg
        have := okPair_ws_slash hok hws
        simp at this
      case isFalse hws =>
        injection h with h1 _
        exact ⟨t, by rw [h1]⟩

/-- On a good list starting with whitespace, the slash pattern fails. -/
theorem trySlash_good_ws {c : Char} {cs : List Char}
    (hg : goodCh (c :: cs) = true) (hws : isWsB c = true) :
    trySlash (c :: cs) = none := by
  rw [trySlash_ws cs hws]
  cases hts : trySlash cs with
  | none => rfl
  | some rest =>
      exfalso
      cases hdw : cs.dropWhile isWsB with
      | nil =>
          simp [trySlash, hdw] at hts
      | cons d r0 =>
          simp only [trySlash, hdw] at hts
          split at hts
          · rename_i hd
            have hd' : d = '/' := beq_iff_eq.mp hd
            subst hd'
            obtain ⟨r', hr'⟩ := goodCh_dropWhile_slash cs (goodCh_cons hg) hdw
            subst hr'
            have hok := goodCh_pair hg
            have := okPair_ws_slash hok hws
            simp at this
          · simp at hts

/-- Good lists are fixed points of the slash-collapsing scan, whatever
the fuel. -/
theorem collapseGo_good : ∀ (f : Nat) (s : List Char),
    goodCh s = true → collapseGo f s = s := by
  intro f
  induction f with
  | zero => intro s _; rfl
  | succ f ih =>
      intro s hg
      cases s with
      | nil => rfl
      | cons c cs =>
          by_cases hc : (c == '/') = true
          · have hc' : c = '/' := beq_iff_eq.mp hc
            subst hc'
            have hdw : cs.dropWhile isWsB = cs := by
              cases cs with
              | nil => rfl
              | cons d t =>
                  have hok := goodCh_pair hg
                  have hd := okPair_slash_ws hok (by decide)
                  rw [List.dropWhile_cons, hd]
                  simp
            simp only [collapseGo, trySlash_slash cs, hdw]
            rw [ih cs (goodCh_cons hg)]
          · have hcf : (c == '/') = false := by
              cases h2 : (c == '/') with
              | false => rfl
              | true => exact absurd h2 hc
            by_cases hws : isWsB c = true
            · simp only [collapseGo, trySlash_good_ws hg hws]
              rw [ih cs (goodCh_cons hg)]
            · have hws' : isWsB c = false := by
                cases h2 : isWsB c with
                | false => rfl
                | true => exact absurd h2 hws
              simp only [collapseGo, trySlash_notWs_notSlash cs hws' hcf]
              rw [ih cs (goodCh_cons hg)]

/-- The scan does nothing to the empty list, whatever the fuel. -/
theorem collapseGo_nil (f : Nat) : collapseGo f [] = [] := by
  cases f <;> rfl

/-- The scan's first output character is a slash or the input's head. -/
theorem collapseGo_head (f : Nat) (c : Char) (cs : List Char) :
    ∃ h t, collapseGo f (c :: cs) = h :: t ∧ (h = '/' ∨ h = c) := by
  cases f with
  | zero => exact ⟨c, cs, rfl, Or.inr rfl⟩
  | succ f =>
      cases htr : trySlash (c :: cs) with
      | some rest =>
          exact ⟨'/', collapseGo f rest, by simp [collapseGo, htr],
            Or.inl rfl⟩
      | none =>
          exact ⟨c, collapseGo f cs, by simp [collapseGo, htr], Or.inr rfl⟩

/-- Building a good list from a good tail and a fine leading pair. -/
theorem goodCh_cons_of (a : Char) (l : List Char)
    (htail : goodCh l = true)
    (hpair : ∀ b t, l = b :: t → okPair a b = true) :
    goodCh (a :: l) = true := by
  cases l with
  | nil => rfl
  | cons b t =>
      simp only [goodCh, Bool.and_eq_true]
      exact ⟨hpair b t rfl, htail⟩

/-- The remainder a successful slash match returns never starts with
whitespace (trailing whitespace was greedily consumed). -/
theorem trySlash_some_head {s rest : List Char}
    (h : trySlash s = some rest) :
    ∀ e t, rest = e :: t → isWsB e = false := by
  intro e t het
  cases hdw : s.dropWhile isWsB with
  | nil => simp [trySlash, hdw] at h
  | cons d r0 =>
      simp only [trySlash, hdw] at h
      split at h
      · injection h with h1
        apply dropWhile_head_not (p := isWsB) (l := r0)
        rw [h1, het]
      · simp at h

/-- A successful slash match consumes at least the slash. -/
theorem trySlash_some_length {c : Char} {cs rest : List Char}
    (h : trySlash (c :: cs) = some rest) : rest.length ≤ cs.length := by
  cases hdw : (c :: cs).dropWhile isWsB with
  | nil => simp [trySlash, hdw] at h
  | cons d r0 =>
      simp only [trySlash, hdw] at h
      split at h
      · injection h with h1
        have h2 : (d :: r0).length ≤ (c :: cs).length := by
          rw [← hdw]
          exact (List.dropWhile_sublist isWsB).length_le
        have h3 : rest.length ≤ r0.length := by
          rw [← h1]
          exact (List.dropWhile_sublist isWsB).length_le
        simp only [List.length_cons] at h2
        omega
      · simp at h

/-- Whatever the input, the scan's output is good: no whitespace is left
touching a slash, provided the fuel covers the input length. -/
theorem goodCh_collapseGo : ∀ (f : Nat) (s : List Char),
    s.length ≤ f → goodCh (collapseGo f s) = true := by
  intro f
  induction f with
  | zero =>
      intro s hs
      have h0 : s = [] := List.length_eq_zero.mp (Nat.le_zero.mp hs)
      subst h0
      rfl
  | succ f ih =>
      intro s hs
      cases s with
      | nil => rfl
      | cons c cs =>
          have hcs : cs.length ≤ f := by
            simp only [List.length_cons] at hs
            omega
          cases htr : trySlash (c :: cs) with
          | some rest =>
              have hout : collapseGo (f + 1) (c :: cs) =
                  '/' :: collapseGo f rest := by
                simp [collapseGo, htr]
              rw [hout]
              have hlen : rest.length ≤ f :=
                le_trans (trySlash_some_length htr) hcs
              apply goodCh_cons_of
              · exact ih rest hlen
              · intro b t hbt
                cases hrest : rest with
                | nil =>
                    rw [hrest, collapseGo_nil] at hbt
                    exact absurd hbt (by simp)
                | cons e es =>
                    obtain ⟨h0, t0, heq, hor⟩ := collapseGo_head f e es
                    rw [hrest, heq] at hbt
                    injection hbt with hb _
                    subst hb
                    have he : isWsB e = false :=
                      trySlash_some_head htr e es hrest
                    have hbws : isWsB h0 = false := by
                      rcases hor with hor | hor
                      · rw [hor]; decide
                      · rw [hor]; exact he
                    have hsl : isWsB '/' = false := by decide
                    simp [okPair, hbws, hsl]
          | none =>
              have hout : collapseGo (f + 1) (c :: cs) =
                  c :: collapseGo f cs := by
                simp [collapseGo, htr]
              rw [hout]
              have hcslash : (c == '/') = false := by
                cases hcc : (c == '/') with
                | false => rfl
                | true =>
                    have hc' : c = '/' := beq_iff_eq.mp hcc
                    subst hc'
                    rw [trySlash_slash] at htr
                    exact Option.noConfusion htr
              apply goodCh_cons_of
              · exact ih cs hcs
              · intro b t hbt
                by_cases hws : isWsB c = true
                · have htcs : trySlash cs = none := by
                    rw [← trySlash_ws cs hws]
                    exact htr
                  cases hcs2 : cs with
                  | nil =>
                      rw [hcs2, collapseGo_nil] at hbt
                      exact absurd hbt (by simp)
                  | cons d ds =>
                      rw [hcs2] at htcs
                      have hd : (d == '/') = false := by
                        cases hdd : (d == '/') with
                        | false => rfl
                        | true =>
                            have hd' : d = '/' := beq_iff_eq.mp hdd
                            subst hd'
                            rw [trySlash_slash] at htcs
                            exact Option.noConfusion htcs
                      have hhead : ∃ t0, collapseGo f (d :: ds) = d :: t0 := by
                        cases f with
                        | zero => exact ⟨ds, rfl⟩
                        | succ f2 =>
                            exact ⟨collapseGo f2 ds, by
                              simp [collapseGo, htcs]⟩
                      obtain ⟨t0, ht0⟩ := hhead
                      rw [hcs2, ht0] at hbt
                      injection hbt with hb _
                      subst hb
                      simp [okPair, hws, hd, hcslash]
                · have hws' : isWsB c = false := by
                    cases h2 : isWsB c with
                    | false => rfl
                    | true => exact absurd h2 hws
                  simp [okPair, hws', hcslash]

/-- Packing a small code point round-trips through `Char`. -/
theorem toNat_ofNat_small {n : Nat} (h : n < 55296) :
    (Char.ofNat n).toNat = n := by
  rw [Char.ofNat, dif_pos (Or.inl h)]
  rfl

/-- Lowercasing an uppercase letter shifts its code point up by 32. -/
theorem lowerChar_toNat_upper {c : Char} (h1 : 65 ≤ c.toNat)
    (h2 : c.toNat ≤ 90) : (lowerChar c).toNat = c.toNat + 32 := by
  rw [lowerChar, if_pos ⟨h1, h2⟩]
  exact toNat_ofNat_small (by omega)

/-- Lowercasing leaves non-uppercase characters alone. -/
theorem lowerChar_notUpper {c : Char}
    (h : ¬ (65 ≤ c.toNat ∧ c.toNat ≤ 90)) : lowerChar c = c := by
  rw [lowerChar, if_neg h]

/-- Lowercasing one character is idempotent. -/
theorem lowerChar_idem (c : Char) : lowerChar (lowerChar c) = lowerChar c := by
  by_cases h : 65 ≤ c.toNat ∧ c.toNat ≤ 90
  · have ht : (lowerChar c).toNat = c.toNat + 32 :=
      lowerChar_toNat_upper h.1 h.2
    apply lowerChar_notUpper
    rw [ht]
    omega
  · rw [lowerChar_notUpper h]
    exact lowerChar_notUpper h

/-- Characters with large code points are not whitespace. -/
theorem isWsB_false_of_ge {c : Char} (h : 47 ≤ c.toNat) :
    isWsB c = false := by
  simp only [isWsB, Bool.or_eq_false_iff, beq_eq_false_iff_ne, ne_eq]
  omega

/-- Lowercasing does not affect being whitespace. -/
theorem isWsB_lowerChar (c : Char) : isWsB (lowerChar c) = isWsB c := by
  by_cases h : 65 ≤ c.toNat ∧ c.toNat ≤ 90
  · have ht : (lowerChar c).toNat = c.toNat + 32 :=
      lowerChar_toNat_upper h.1 h.2
    rw [isWsB_false_of_ge (by omega), isWsB_false_of_ge (by omega)]
  · rw [lowerChar_notUpper h]

/-- Lowercasing does not affect being a slash. -/
theorem lowerChar_beq_slash (c : Char) :
    (lowerChar c == '/') = (c == '/') := by
  by_cases h : 65 ≤ c.toNat ∧ c.toNat ≤ 90
  · have ht : (lowerChar c).toNat = c.toNat + 32 :=
      lowerChar_toNat_upper h.1 h.2
    have h1 : (lowerChar c == '/') = false := by
      rw [beq_eq_false_iff_ne]
      intro he
      have : (lowerChar c).toNat = 47 := by rw [he]; decide
      omega
    have h2 : (c == '/') = false := by
      rw [beq_eq_false_iff_ne]
      intro he
      have : c.toNat = 47 := by rw [he]; decide
      omega
    rw [h1, h2]
  · rw [lowerChar_notUpper h]

/-- Lowercasing does not affect whether a pair is fine. -/
theorem okPair_lower (a b : Char) :
    okPair (lowerChar a) (lowerChar b) = okPair a b := by
  rw [okPair, okPair, isWsB_lowerChar, isWsB_lowerChar,
    lowerChar_beq_slash, lowerChar_beq_slash]

/-- Lowercasing does not affect goodness. -/
theorem goodCh_lower : ∀ (s : List Char),
    goodCh (lowerList s) = goodCh s := by
  intro s
  induction s with
  | nil => rfl
  | cons a t ih =>
      cases t with
      | nil => rfl
      | cons b r =>
          show goodCh (lowerChar a :: lowerChar b :: lowerList r) = _
          simp only [goodCh]
          rw [okPair_lower]
          have hh : lowerChar b :: lowerList r = lowerList (b :: r) := rfl
          rw [hh, ih]

/-- Lowercasing a character list is idempotent. -/
theorem lowerList_idem (s : List Char) :
    lowerList (lowerList s) = lowerList s := by
  induction s with
  | nil => rfl
  | cons a t ih =>
      show lowerChar (lowerChar a) :: lowerList (lowerList t) = _
      rw [lowerChar_idem, ih]
      rfl

/-- Claim C8: `_normalize_term` is idempotent — normalizing an
already-normalized term returns it unchanged, for every input string. -/
theorem claim8_normalize_idem (t : String) :
    normalizeTerm (normalizeTerm t) = normalizeTerm t := by
  apply String.ext
  show lowerList (collapseSlash (lowerList (collapseSlash t.data))) =
    lowerList (collapseSlash t.data)
  have hg : goodCh (collapseSlash t.data) = true :=
    goodCh_collapseGo t.data.length t.data (le_refl _)
  have hgl : goodCh (lowerList (collapseSlash t.data)) = true := by
    rw [goodCh_lower]
    exact hg
  have hfix : collapseSlash (lowerList (collapseSlash t.data)) =
      lowerList (collapseSlash t.data) :=
    collapseGo_good _ _ hgl
  rw [hfix, lowerList_idem]

end Indexer
